import Mathlib

/-!
Verification development for the training-loop engine of `teras`
(`teras/training/trainer.py`).  The `Trainer.fit` / `Trainer._process`
control flow is translated into executable Lean definitions; the
collaborators that the trainer imports but whose sources are not part of
this tree (`teras.dataset.Dataset`, `teras.training.event.Dispatcher`,
`teras.training.listeners.Reporter`) are modelled from the specification,
as noted on each such definition.
-/

/-- Lifecycle events of a training run (`teras.training.event.TrainEvent`).
Modelled from the spec: the event module is not in the tree; the spec fixes
the ten enumerated lifecycle markers. -/
inductive TrainEvent where
  | TRAIN_BEGIN
  | EPOCH_BEGIN
  | EPOCH_TRAIN_BEGIN
  | BATCH_BEGIN
  | BATCH_END
  | EPOCH_TRAIN_END
  | EPOCH_VALIDATE_BEGIN
  | EPOCH_VALIDATE_END
  | EPOCH_END
  | TRAIN_END
deriving DecidableEq, Repr

/-- Keys of the mutable log records threaded through `notify`.  The Python
code uses string dictionary keys; the fixed key set occurring in
`trainer.py` is modelled as an enumeration. -/
inductive Key where
  | epoch
  | size
  | num_batches
  | loss
  | train
  | batch_index
  | batch_size
  | xs
  | ts
  | ys
deriving DecidableEq, Repr

/-- Dynamically typed values flowing through the loop: an atom (array,
tensor, scalar, ...) over a user-chosen carrier `C`, or a finite sequence
of values (Python list/tuple of columns). -/
inductive PyVal (C : Type) where
  | atom : C → PyVal C
  | seq : List (PyVal C) → PyVal C

instance {C : Type} : Inhabited (PyVal C) := ⟨.seq []⟩

/-- Python `len` on a value; only sequences have a length (evaluating it on
an atom would raise `TypeError` in Python and never happens in the runs the
claims describe; it is mapped to `0` here). -/
def pyLen {C : Type} : PyVal C → ℕ
  | .seq l => l.length
  | .atom _ => 0

/-- Python `f(*xs)` argument unpacking of a sequence value.  A non-sequence
value would raise `TypeError` in Python; it is mapped to a singleton list
here and never arises in the runs the claims describe. -/
def pyUnpack {C : Type} : PyVal C → List (PyVal C)
  | .seq l => l
  | v => [v]

/-- Values stored in a log record. -/
inductive RVal (C : Type) where
  | none
  | nat : ℕ → RVal C
  | rat : ℚ → RVal C
  | bool : Bool → RVal C
  | val : PyVal C → RVal C

/-- A log record: an insertion-ordered key/value mapping, as a Python dict
with the fixed key schema of `trainer.py`. -/
def Rec (C : Type) : Type := List (Key × RVal C)

/-- Dict assignment `r[k] = v`: overwrite the existing entry in place, or
append a fresh key at the end (Python dicts preserve insertion order). -/
def Rec.set {C : Type} : Rec C → Key → RVal C → Rec C
  | [], k, v => [(k, v)]
  | (k', v') :: rest, k, v =>
      if k' = k then (k, v) :: rest else (k', v') :: Rec.set rest k v

/-- Dict lookup `r[k]` (missing keys, a `KeyError` in Python, are mapped to
`RVal.none`; the runs the claims describe only read present keys). -/
def Rec.get {C : Type} : Rec C → Key → RVal C
  | [], _ => .none
  | (k', v) :: rest, k => if k' = k then v else Rec.get rest k

/-- The keys of a record, in insertion order. -/
def Rec.keys {C : Type} (r : Rec C) : List Key := r.map Prod.fst

/-- Read a `PyVal` field of a record (used by the accuracy hook for
`data['ys']` and `data['ts']`). -/
def Rec.pyval {C : Type} (r : Rec C) (k : Key) : PyVal C :=
  match r.get k with
  | .val v => v
  | _ => default

/-- Errors that abort a `fit` call.  `invalidArgument` models the
`ValueError`s raised in `Trainer.fit` (the spec's `InvalidArgument`);
`assertionError` models a failing bare `assert`; `stateError` models the
spec's `StateError` (reporting outside an active scope); `other` stands for
an arbitrary exception raised by user-supplied callbacks. -/
inductive Err where
  | invalidArgument
  | assertionError
  | stateError
  | other : ℕ → Err
deriving DecidableEq, Repr

/-- One aggregation frame of the Reporter: per metric name, the count and
sum of the values reported while the frame was active.
Modelled from the spec: `teras.training.listeners.Reporter` is not in the
tree; the spec describes a scoped aggregator whose `report(mapping)` adds
each named metric value into the innermost active frame's running
aggregate. -/
def Frame : Type := List (String × ℕ × ℚ)

/-- Add one reported value for metric `k` into a frame's running
aggregate. -/
def Frame.add (f : Frame) (k : String) (q : ℚ) : Frame :=
  match f with
  | [] => [(k, 1, q)]
  | (k', c, s) :: rest =>
      if k' = k then (k, c + 1, s + q) :: rest else (k', c, s) :: Frame.add rest k q

/-- Modelled from the spec: `teras.training.listeners.report` adds the given
metrics into the innermost active Reporter frame and fails with the spec's
`StateError` when no frame is active. -/
def reportMetrics (m : List (String × ℚ)) (fs : List Frame) :
    List Frame × Option Err :=
  match fs with
  | [] => ([], some .stateError)
  | f :: rest => ((m.foldl (fun g p => g.add p.1 p.2) f) :: rest, none)

/-- Observable actions of a run: this ghost trace records each event
notification (with the record passed to it), each forward call, each loss
call, and each invocation of the update strategy (with the optimizer id and
the loss handed to it). -/
inductive Act (C : Type) where
  | notify : TrainEvent → Rec C → Act C
  | forwardCall : List (PyVal C) → PyVal C → Act C
  | lossCall : PyVal C → PyVal C → ℚ → Act C
  | updateCall : ℕ → ℚ → Act C

/-- The mutable world threaded through a run: the ghost trace of actions and
the Reporter's stack of aggregation frames. -/
structure St (C : Type) where
  trace : List (Act C)
  frames : List Frame

/-- The empty initial world. -/
def emptySt {C : Type} : St C := ⟨[], []⟩

/-- A callback (listener method or hook) as run by `Dispatcher.notify`: it
receives the shared log record and the Reporter frames, may mutate both, and
may raise.
Modelled from the spec: the `Dispatcher` is not in the tree; callbacks
observe and mutate the shared log record, may call `report`, and their
exceptions propagate to the caller of `notify`. -/
def Cb (C : Type) : Type :=
  Rec C → List Frame → Rec C × List Frame × Option Err

/-- The callback table of the Dispatcher: for each event, the callbacks in
their notification order (priority ascending, registration order as
tie-break).
Modelled from the spec: the registry itself is not in the tree; only the
resulting per-event execution order matters to the trainer, so the table is
kept as that ordered list. -/
def HookTable (C : Type) : Type := TrainEvent → List (Cb C)

/-- The empty callback table. -/
def emptyHooks {C : Type} : HookTable C := fun _ => []

/-- `add_hook(event, hook)`: hooks for one event accumulate in registration
order after the previously registered callbacks for that event. -/
def addHook {C : Type} (e : TrainEvent) (cb : Cb C) (ht : HookTable C) :
    HookTable C :=
  fun e' => if e' = e then ht e' ++ [cb] else ht e'

/-- Run the callbacks of one event in order; a raising callback stops the
chain, keeping the mutations made so far. -/
def runCbs {C : Type} :
    List (Cb C) → Rec C → List Frame → Rec C × List Frame × Option Err
  | [], r, fs => (r, fs, none)
  | cb :: rest, r, fs =>
      match cb r fs with
      | (r', fs', some e) => (r', fs', some e)
      | (r', fs', none) => runCbs rest r' fs'

/-- Modelled from the spec: `Dispatcher.notify(event, log_record)` runs the
event's callbacks synchronously in order on the shared record; exceptions
propagate.  The ghost trace records the notification with the record as
passed in. -/
def notify {C : Type} (ht : HookTable C) (e : TrainEvent) (r : Rec C)
    (s : St C) : Rec C × St C × Option Err :=
  let res := runCbs (ht e) r s.frames
  (res.1, ⟨s.trace ++ [.notify e r], res.2.1⟩, res.2.2)

/-- The dataset collaborator (`teras.dataset.Dataset`).
Modelled from the spec: the class is not in the tree; it exposes an element
count `size` and a `batch(batch_size, colwise, shuffle)` operation producing
a finite sequence of batches, each a sequence of columns.  Shuffling is
random in Python and is modelled as part of the opaque `batch` function;
only the `colwise=True` form used by the trainer is modelled. -/
structure Dataset (C : Type) where
  size : ℕ
  batch : ℕ → Bool → List (List (PyVal C))

/-- Chunk a list into runs of `bs` elements (the last chunk may be
shorter); structural fuel recursion so that it evaluates in the kernel. -/
def chunkAux {α : Type} (bs : ℕ) : ℕ → List α → List (List α)
  | 0, _ => []
  | _, [] => []
  | fuel + 1, l => l.take bs :: chunkAux bs fuel (l.drop bs)

/-- Chunk a list into `batch_size` runs. -/
def chunkList {α : Type} (bs : ℕ) (l : List α) : List (List α) :=
  chunkAux bs l.length l

/-- Modelled from the spec: `Dataset(x, y)` wraps two parallel arrays into a
dataset of two aligned columns; a `batch_size` that does not divide the size
yields one additional smaller final batch. -/
def Dataset.fromXY {C : Type} (x y : List (PyVal C)) : Dataset C where
  size := x.length
  batch bs _shuffle :=
    (chunkList bs x).zipWith (fun cx cy => [PyVal.seq cx, PyVal.seq cy])
      (chunkList bs y)

/-- The `x` argument of `fit`: a ready-made dataset or a raw input array. -/
inductive FitX (C : Type) where
  | ds : Dataset C → FitX C
  | raw : List (PyVal C) → FitX C

/-- The `validation_data` argument of `fit`: omitted (`None`), a dataset, or
a sequence of items (Python list/tuple of arrays). -/
inductive VdArg (C : Type) where
  | vNone
  | ds : Dataset C → VdArg C
  | items : List (List (PyVal C)) → VdArg C

/-- The trainer's injected capabilities (`Trainer.__init__` / `configure`):
optimizer (an opaque id), forward function, loss function, optional accuracy
function, optional converter.  The update strategy's own computation is
external; its invocations are recorded in the ghost trace. -/
structure TrainerCfg (C : Type) where
  optimizer : ℕ
  forward : List (PyVal C) → PyVal C
  lossfun : PyVal C → PyVal C → ℚ
  accFunc : Option (PyVal C → PyVal C → ℚ) := none
  converter : Option (PyVal C → PyVal C) := none

/-- Lines 88-89 of `trainer.py`: the conversion function is the configured
converter when callable, and the identity otherwise. -/
def effConvert {C : Type} (c : Option (PyVal C → PyVal C)) :
    PyVal C → PyVal C :=
  c.getD id

/-- Lines 138-142: `xs = batch[:-1]`, then `xs = [convert(xs[0])]` when it
has a single column and `xs = convert(xs)` otherwise; this is the value
bound to `xs` (and logged as `batch_logs['xs']`). -/
def batchInputsVal {C : Type} (conv : PyVal C → PyVal C)
    (b : List (PyVal C)) : PyVal C :=
  let xs := b.dropLast
  if xs.length = 1 then .seq [conv xs.head!] else conv (.seq xs)

/-- Lines 138 and 143: `ts = convert(batch[-1])`. -/
def batchTs {C : Type} (conv : PyVal C → PyVal C) (b : List (PyVal C)) :
    PyVal C :=
  conv (b.getLast!)

/-- The positional arguments of the forward call `forward(*xs)`. -/
def batchArgs {C : Type} (conv : PyVal C → PyVal C) (b : List (PyVal C)) :
    List (PyVal C) :=
  pyUnpack (batchInputsVal conv b)

/-- Line 157: `ys = forward(*xs)` for one batch. -/
def batchYs {C : Type} (cfg : TrainerCfg C) (b : List (PyVal C)) : PyVal C :=
  cfg.forward (batchArgs (effConvert cfg.converter) b)

/-- Line 158: `loss = lossfun(ys, ts)` for one batch (its scalar value; the
code reads it with `loss.__float__()`). -/
def batchLoss {C : Type} (cfg : TrainerCfg C) (b : List (PyVal C)) : ℚ :=
  cfg.lossfun (batchYs cfg b) (batchTs (effConvert cfg.converter) b)

/-- Lines 145-154: the fresh `batch_logs` record built for one batch. -/
def initBatchLogs {C : Type} (conv : PyVal C → PyVal C) (train : Bool)
    (idx numBatches : ℕ) (b : List (PyVal C)) : Rec C :=
  [(.train, .bool train),
   (.batch_index, .nat idx),
   (.batch_size, .nat (pyLen (batchTs conv b))),
   (.xs, .val (batchInputsVal conv b)),
   (.ts, .val (batchTs conv b)),
   (.ys, .none),
   (.loss, .none),
   (.num_batches, .nat numBatches)]

/-- `math.ceil(size / batch_size)` of line 130, on naturals. -/
def ceilDiv (n b : ℕ) : ℕ := (n + b - 1) / b

/-- Lines 136-167: the body of the batch loop of `Trainer._process` for one
batch: notify `BATCH_BEGIN` on the fresh batch record, run forward and loss,
fill `ys`/`loss` into the record, accumulate the epoch loss, apply the
update strategy when training, notify `BATCH_END`.  Returns the accumulated
epoch loss and the world; a raising callback aborts with its error. -/
def processBatchStep {C : Type} (cfg : TrainerCfg C) (ht : HookTable C)
    (train : Bool) (numBatches idx : ℕ) (b : List (PyVal C)) (accLoss : ℚ)
    (s : St C) : ℚ × St C × Option Err :=
  match notify ht .BATCH_BEGIN
      (initBatchLogs (effConvert cfg.converter) train idx numBatches b) s with
  | (_, s₁, some e) => (accLoss, s₁, some e)
  | (bl₁, s₁, none) =>
      let ys := batchYs cfg b
      let l := batchLoss cfg b
      let s₂ : St C :=
        ⟨s₁.trace ++
          [.forwardCall (batchArgs (effConvert cfg.converter) b) ys,
           .lossCall ys (batchTs (effConvert cfg.converter) b) l],
         s₁.frames⟩
      let bl₂ := (bl₁.set .ys (.val ys)).set .loss (.rat l)
      let s₃ : St C :=
        if train then ⟨s₂.trace ++ [.updateCall cfg.optimizer l], s₂.frames⟩
        else s₂
      match notify ht .BATCH_END bl₂ s₃ with
      | (_, s₄, err) => (accLoss + l, s₄, err)

/-- The batch loop of `Trainer._process` over the batches the dataset
yields, with `enumerate`'s running index. -/
def processLoop {C : Type} (cfg : TrainerCfg C) (ht : HookTable C)
    (train : Bool) (numBatches : ℕ) :
    List (List (PyVal C)) → ℕ → ℚ → St C → ℚ × St C × Option Err
  | [], _, accLoss, s => (accLoss, s, none)
  | b :: rest, idx, accLoss, s =>
      match processBatchStep cfg ht train numBatches idx b accLoss s with
      | (acc', s', some e) => (acc', s', some e)
      | (acc', s', none) =>
          processLoop cfg ht train numBatches rest (idx + 1) acc' s'

/-- `Trainer._process` (lines 121-171): work on a copy of the caller's
record, write `size`, `num_batches` and a `None` loss into it, notify the
phase-begin event, run the batch loop, store the mean loss (total divided by
`ceil(size / batch_size)`), and notify the phase-end event.  The caller's
record is never written back. -/
def process {C : Type} (cfg : TrainerCfg C) (ht : HookTable C)
    (ds : Dataset C) (batchSize : ℕ) (logs : Rec C) (train : Bool)
    (s : St C) : St C × Option Err :=
  let nb := ceilDiv ds.size batchSize
  let logs₁ :=
    ((logs.set .size (.nat ds.size)).set .num_batches (.nat nb)).set
      .loss .none
  match notify ht
      (if train then .EPOCH_TRAIN_BEGIN else .EPOCH_VALIDATE_BEGIN)
      logs₁ s with
  | (_, s₁, some e) => (s₁, some e)
  | (logs₄, s₁, none) =>
      let logs₅ := logs₄.set .loss (.rat 0)
      match processLoop cfg ht train nb (ds.batch batchSize train) 0 0 s₁ with
      | (_, s₂, some e) => (s₂, some e)
      | (accLoss, s₂, none) =>
          let logs₆ := logs₅.set .loss (.rat (accLoss / (nb : ℚ)))
          match notify ht
              (if train then .EPOCH_TRAIN_END else .EPOCH_VALIDATE_END)
              logs₆ s₂ with
          | (_, s₃, err) => (s₃, err)

/-- Lines 49-56 of `Trainer.fit`: resolve the `x`/`y` arguments into the
training dataset.  A dataset with a non-`None` `y` trips the bare
`assert y is None`; a non-dataset `x` without `y` raises the
`ValueError('incomplete input data: ...')`. -/
def resolveXY {C : Type} (x : FitX C) (y : Option (List (PyVal C))) :
    Except Err (Dataset C) :=
  match x, y with
  | .ds d, none => .ok d
  | .ds _, some _ => .error .assertionError
  | .raw xr, some yr => .ok (Dataset.fromXY xr yr)
  | .raw _, none => .error .invalidArgument

/-- Lines 58-71 of `Trainer.fit`: resolve `validation_data`.  The check is
guarded by Python truthiness (`if validation_data:`), so `None` and an empty
sequence mean no validation; a dataset or a two-item sequence is accepted;
any other truthy sequence raises the `ValueError('When passing
validation_data, ...')`.  A `Dataset` instance is modelled as truthy. -/
def resolveVd {C : Type} : VdArg C → Except Err (Option (Dataset C))
  | .vNone => .ok none
  | .ds d => .ok (some d)
  | .items [] => .ok none
  | .items [a, b] => .ok (some (Dataset.fromXY a b))
  | .items _ => .error .invalidArgument

/-- Lines 75-79 of `Trainer.fit`: the hook registered on `BATCH_END` when an
accuracy function is supplied; it computes `accuracy(data['ys'],
data['ts'])` and reports it into the active Reporter frame. -/
def accuracyHook {C : Type} (acc : PyVal C → PyVal C → ℚ) : Cb C :=
  fun r fs =>
    let v := acc (r.pyval .ys) (r.pyval .ts)
    let res := reportMetrics [("accuracy", v)] fs
    (r, res.1, res.2)

/-- Lines 73-79 of `Trainer.fit`: the callback table after `fit` wires the
Reporter (whose scope is modelled by the frame push/pop in `fit`) and, when
an accuracy function is present, registers the accuracy hook on
`BATCH_END`. -/
def fitHooks {C : Type} (cfg : TrainerCfg C) (ht₀ : HookTable C) :
    HookTable C :=
  match cfg.accFunc with
  | some acc => addHook .BATCH_END (accuracyHook acc) ht₀
  | none => ht₀

/-- Lines 97-100: the fresh epoch record `{'epoch': epoch, 'size':
train_dataset.size}`. -/
def initEpochRec {C : Type} (epoch size : ℕ) : Rec C :=
  [(.epoch, .nat epoch), (.size, .nat size)]

/-- Lines 96-109: one iteration of `main_loop`: notify `EPOCH_BEGIN` on the
fresh epoch record, run the training pass, run the validation pass when
validation data is present, and notify `EPOCH_END` on the same epoch record
(which `_process` received only as a copy). -/
def runEpoch {C : Type} (cfg : TrainerCfg C) (ht : HookTable C)
    (trainDs : Dataset C) (valDs : Option (Dataset C)) (batchSize epoch : ℕ)
    (s : St C) : St C × Option Err :=
  match notify ht .EPOCH_BEGIN (initEpochRec epoch trainDs.size) s with
  | (_, s₁, some e) => (s₁, some e)
  | (el₁, s₁, none) =>
      match process cfg ht trainDs batchSize el₁ true s₁ with
      | (s₂, some e) => (s₂, some e)
      | (s₂, none) =>
          match (match valDs with
                 | some vd => process cfg ht vd batchSize el₁ false s₂
                 | none => (s₂, none)) with
          | (s₃, some e) => (s₃, some e)
          | (s₃, none) =>
              match notify ht .EPOCH_END el₁ s₃ with
              | (_, s₄, err) => (s₄, err)

/-- The epoch loop of `main_loop` over the epoch indices. -/
def epochLoop {C : Type} (cfg : TrainerCfg C) (ht : HookTable C)
    (trainDs : Dataset C) (valDs : Option (Dataset C)) (batchSize : ℕ) :
    List ℕ → St C → St C × Option Err
  | [], s => (s, none)
  | e :: rest, s =>
      match runEpoch cfg ht trainDs valDs batchSize e s with
      | (s', some err) => (s', some err)
      | (s', none) => epochLoop cfg ht trainDs valDs batchSize rest s'

/-- `range(1, epochs + 1)` of line 96. -/
def epochsList (epochs : ℕ) : List ℕ := (List.range epochs).map (· + 1)

/-- `Trainer.fit` (lines 43-119): validate the arguments, wire the Reporter
and the optional accuracy hook, notify `TRAIN_BEGIN`, run `main_loop` inside
the Reporter scope (a frame pushed on entry and popped on every exit path,
exceptional or not), notify `TRAIN_END`, and return the (never populated)
`history` list. -/
def fit {C : Type} (cfg : TrainerCfg C) (ht₀ : HookTable C) (x : FitX C)
    (y : Option (List (PyVal C))) (batchSize epochs : ℕ) (vd : VdArg C) :
    St C × Except Err (List ℚ) :=
  match resolveXY x y with
  | .error e => (emptySt, .error e)
  | .ok trainDs =>
      match resolveVd vd with
      | .error e => (emptySt, .error e)
      | .ok valDs =>
          let ht := fitHooks cfg ht₀
          match notify ht .TRAIN_BEGIN [] emptySt with
          | (_, s₁, some e) => (s₁, .error e)
          | (_, s₁, none) =>
              let s₂ : St C := ⟨s₁.trace, [] :: s₁.frames⟩
              match epochLoop cfg ht trainDs valDs batchSize
                  (epochsList epochs) s₂ with
              | (s₃, errL) =>
                  let s₄ : St C := ⟨s₃.trace, s₃.frames.tail⟩
                  match errL with
                  | some e => (s₄, .error e)
                  | none =>
                      match notify ht .TRAIN_END [] s₄ with
                      | (_, s₅, some e) => (s₅, .error e)
                      | (_, s₅, none) => (s₅, .ok [])

/-- The sequence of events notified in a trace. -/
def eventsOf {C : Type} (tr : List (Act C)) : List TrainEvent :=
  tr.filterMap fun a =>
    match a with
    | .notify e _ => some e
    | _ => none

/-- The update-strategy invocations of a trace, as (optimizer, loss)
argument pairs in order. -/
def updateCalls {C : Type} (tr : List (Act C)) : List (ℕ × ℚ) :=
  tr.filterMap fun a =>
    match a with
    | .updateCall o l => some (o, l)
    | _ => none

/-- The records passed to the notifications of one given event, in order. -/
def notifyRecs {C : Type} (e : TrainEvent) (tr : List (Act C)) :
    List (Rec C) :=
  tr.filterMap fun a =>
    match a with
    | .notify e' r => if e' = e then some r else none
    | _ => none

/-- The event pattern of `k` batch begin/end pairs. -/
def pairEvents (k : ℕ) : List TrainEvent :=
  (List.replicate k [TrainEvent.BATCH_BEGIN, TrainEvent.BATCH_END]).flatten

/-- The event pattern of one `_process` pass. -/
def phaseEvents (train : Bool) (k : ℕ) : List TrainEvent :=
  (if train then TrainEvent.EPOCH_TRAIN_BEGIN else .EPOCH_VALIDATE_BEGIN)
    :: pairEvents k ++
      [if train then TrainEvent.EPOCH_TRAIN_END else .EPOCH_VALIDATE_END]

/-- The event pattern of one epoch: `kt` training pairs, and `kv` validation
pairs when validation data is present. -/
def epochEvents (kt : ℕ) (kv : Option ℕ) : List TrainEvent :=
  TrainEvent.EPOCH_BEGIN
    :: (phaseEvents true kt ++
        (match kv with
         | some k => phaseEvents false k
         | none => []) ++
        [TrainEvent.EPOCH_END])

/-- The event pattern of a whole `fit` run. -/
def fitEvents (epochs kt : ℕ) (kv : Option ℕ) : List TrainEvent :=
  TrainEvent.TRAIN_BEGIN
    :: ((List.replicate epochs (epochEvents kt kv)).flatten ++
        [TrainEvent.TRAIN_END])

/-- Projection of an `Except` result onto its error, if any. -/
def resErr {α : Type} (r : Except Err α) : Option Err :=
  match r with
  | .error e => some e
  | .ok _ => none

/-- Projection of an `Except` result onto its value, if any. -/
def resOk {α : Type} (r : Except Err α) : Option α :=
  match r with
  | .error _ => none
  | .ok a => some a

/-! Helper lemmas about the trace projections and the record operations. -/

@[simp] theorem eventsOf_append {C : Type} (a b : List (Act C)) :
    eventsOf (a ++ b) = eventsOf a ++ eventsOf b :=
  List.filterMap_append a b _

@[simp] theorem updateCalls_append {C : Type} (a b : List (Act C)) :
    updateCalls (a ++ b) = updateCalls a ++ updateCalls b :=
  List.filterMap_append a b _

@[simp] theorem notifyRecs_append {C : Type} (e : TrainEvent) (a b : List (Act C)) :
    notifyRecs e (a ++ b) = notifyRecs e a ++ notifyRecs e b :=
  List.filterMap_append a b _

theorem Rec.get_set {C : Type} (r : Rec C) (k : Key) (v : RVal C) :
    (r.set k v).get k = v := by
  induction r with
  | nil => simp [Rec.set, Rec.get]
  | cons p rest ih =>
      by_cases h : p.1 = k
      · simp [Rec.set, Rec.get, h]
      · simp [Rec.set, Rec.get, h, ih]

theorem Rec.get_set_ne {C : Type} (r : Rec C) {k k' : Key} (v : RVal C)
    (hk : k' ≠ k) : (r.set k' v).get k = r.get k := by
  induction r with
  | nil => simp [Rec.set, Rec.get, hk]
  | cons p rest ih =>
      by_cases h : p.1 = k'
      · simp [Rec.set, Rec.get, h, hk]
      · simp [Rec.set, Rec.get, h, ih]

theorem notify_eq {C : Type} (ht : HookTable C) (e : TrainEvent) (r : Rec C)
    (s : St C) :
    notify ht e r s = ((runCbs (ht e) r s.frames).1,
      ⟨s.trace ++ [Act.notify e r], (runCbs (ht e) r s.frames).2.1⟩,
      (runCbs (ht e) r s.frames).2.2) := rfl

/-- Normal completion of one batch of `_process`: the loss accumulator grows
by that batch's loss, and the trace grows by the `BATCH_BEGIN` notification
on the fresh batch record, the forward call, the loss call, the update call
exactly when training, and the `BATCH_END` notification on the record
carrying that batch's predictions and loss. -/
theorem step_ok {C : Type} {cfg : TrainerCfg C} {ht : HookTable C}
    {train : Bool} {nb idx : ℕ} {b : List (PyVal C)} {al : ℚ} {s : St C}
    {acc' : ℚ} {s' : St C}
    (h : processBatchStep cfg ht train nb idx b al s = (acc', s', none)) :
    acc' = al + batchLoss cfg b ∧
    ∃ bl₂, Rec.get bl₂ .loss = .rat (batchLoss cfg b) ∧
      Rec.get bl₂ .ys = .val (batchYs cfg b) ∧
      s'.trace = s.trace ++
        ([Act.notify .BATCH_BEGIN
            (initBatchLogs (effConvert cfg.converter) train idx nb b),
          Act.forwardCall (batchArgs (effConvert cfg.converter) b)
            (batchYs cfg b),
          Act.lossCall (batchYs cfg b)
            (batchTs (effConvert cfg.converter) b) (batchLoss cfg b)] ++
         (if train then [Act.updateCall cfg.optimizer (batchLoss cfg b)]
          else []) ++
         [Act.notify .BATCH_END bl₂]) := by
  rcases hq : runCbs (ht .BATCH_BEGIN)
      (initBatchLogs (effConvert cfg.converter) train idx nb b) s.frames with
    ⟨bl₁, fs₁, err₁⟩
  unfold processBatchStep at h
  rw [notify_eq, hq] at h
  cases err₁ with
  | some e => simp at h
  | none =>
      simp only [] at h
      rw [notify_eq] at h
      simp only [Prod.mk.injEq] at h
      obtain ⟨h1, h2, -⟩ := h
      refine ⟨h1.symm, (bl₁.set .ys (.val (batchYs cfg b))).set .loss
        (.rat (batchLoss cfg b)), Rec.get_set _ _ _, ?_, ?_⟩
      · rw [Rec.get_set_ne _ _ (by decide), Rec.get_set]
      · rw [← h2]
        cases train <;> simp [List.append_assoc]

@[simp] theorem updateCalls_nil {C : Type} :
    updateCalls ([] : List (Act C)) = [] := rfl

@[simp] theorem updateCalls_cons_notify {C : Type} (e : TrainEvent)
    (r : Rec C) (tr : List (Act C)) :
    updateCalls (Act.notify e r :: tr) = updateCalls tr := rfl

@[simp] theorem updateCalls_cons_forward {C : Type} (a : List (PyVal C))
    (y : PyVal C) (tr : List (Act C)) :
    updateCalls (Act.forwardCall a y :: tr) = updateCalls tr := rfl

@[simp] theorem updateCalls_cons_loss {C : Type} (y t : PyVal C) (q : ℚ)
    (tr : List (Act C)) :
    updateCalls (Act.lossCall y t q :: tr) = updateCalls tr := rfl

@[simp] theorem updateCalls_cons_upd {C : Type} (o : ℕ) (q : ℚ)
    (tr : List (Act C)) :
    updateCalls (Act.updateCall o q :: tr) = (o, q) :: updateCalls tr := rfl

@[simp] theorem eventsOf_nil {C : Type} :
    eventsOf ([] : List (Act C)) = [] := rfl

@[simp] theorem eventsOf_cons_notify {C : Type} (e : TrainEvent) (r : Rec C)
    (tr : List (Act C)) :
    eventsOf (Act.notify e r :: tr) = e :: eventsOf tr := rfl

@[simp] theorem eventsOf_cons_forward {C : Type} (a : List (PyVal C))
    (y : PyVal C) (tr : List (Act C)) :
    eventsOf (Act.forwardCall a y :: tr) = eventsOf tr := rfl

@[simp] theorem eventsOf_cons_loss {C : Type} (y t : PyVal C) (q : ℚ)
    (tr : List (Act C)) :
    eventsOf (Act.lossCall y t q :: tr) = eventsOf tr := rfl

@[simp] theorem eventsOf_cons_upd {C : Type} (o : ℕ) (q : ℚ)
    (tr : List (Act C)) :
    eventsOf (Act.updateCall o q :: tr) = eventsOf tr := rfl

@[simp] theorem notifyRecs_nil {C : Type} (e : TrainEvent) :
    notifyRecs e ([] : List (Act C)) = [] := rfl

theorem notifyRecs_cons_notify {C : Type} (e e' : TrainEvent) (r : Rec C)
    (tr : List (Act C)) :
    notifyRecs e (Act.notify e' r :: tr) =
      (if e' = e then [r] else []) ++ notifyRecs e tr := by
  by_cases h : e' = e <;> simp [notifyRecs, List.filterMap_cons, h]

@[simp] theorem notifyRecs_cons_forward {C : Type} (e : TrainEvent)
    (a : List (PyVal C)) (y : PyVal C) (tr : List (Act C)) :
    notifyRecs e (Act.forwardCall a y :: tr) = notifyRecs e tr := rfl

@[simp] theorem notifyRecs_cons_loss {C : Type} (e : TrainEvent)
    (y t : PyVal C) (q : ℚ) (tr : List (Act C)) :
    notifyRecs e (Act.lossCall y t q :: tr) = notifyRecs e tr := rfl

@[simp] theorem notifyRecs_cons_upd {C : Type} (e : TrainEvent) (o : ℕ)
    (q : ℚ) (tr : List (Act C)) :
    notifyRecs e (Act.updateCall o q :: tr) = notifyRecs e tr := rfl

theorem pairEvents_zero : pairEvents 0 = [] := rfl

theorem pairEvents_succ (k : ℕ) :
    pairEvents (k + 1) =
      TrainEvent.BATCH_BEGIN :: TrainEvent.BATCH_END :: pairEvents k := by
  simp [pairEvents, List.replicate_succ]

/-- Normal completion of the batch loop of `_process`: the loss accumulator
ends at its start plus the sum of the per-batch losses, the events grow by
one `BATCH_BEGIN`/`BATCH_END` pair per yielded batch, the update strategy is
invoked exactly once per batch with the trainer's optimizer and that batch's
loss when training and never when validating, and no notification of any
other event is added. -/
theorem loop_ok {C : Type} {cfg : TrainerCfg C} {ht : HookTable C}
    {train : Bool} {nb : ℕ} :
    ∀ (batches : List (List (PyVal C))) (idx : ℕ) (al : ℚ) (s : St C)
      (acc' : ℚ) (s' : St C),
    processLoop cfg ht train nb batches idx al s = (acc', s', none) →
    acc' = al + (batches.map (batchLoss cfg)).sum ∧
    eventsOf s'.trace = eventsOf s.trace ++ pairEvents batches.length ∧
    updateCalls s'.trace = updateCalls s.trace ++
      (if train then batches.map (fun b => (cfg.optimizer, batchLoss cfg b))
       else []) ∧
    (∀ e, e ≠ TrainEvent.BATCH_BEGIN → e ≠ TrainEvent.BATCH_END →
      notifyRecs e s'.trace = notifyRecs e s.trace) := by
  intro batches
  induction batches with
  | nil =>
      intro idx al s acc' s' h
      unfold processLoop at h
      simp only [Prod.mk.injEq] at h
      obtain ⟨h1, h2, -⟩ := h
      subst h1; subst h2
      refine ⟨by simp, by simp [pairEvents_zero], by simp, fun e _ _ => rfl⟩
  | cons b rest ih =>
      intro idx al s acc' s' h
      unfold processLoop at h
      rcases hstep : processBatchStep cfg ht train nb idx b al s with
        ⟨a₁, s₁, e₁⟩
      rw [hstep] at h
      cases e₁ with
      | some e => simp at h
      | none =>
          simp only [] at h
          obtain ⟨hacc, bl₂, -, -, htr⟩ := step_ok hstep
          obtain ⟨ih1, ih2, ih3, ih4⟩ := ih _ _ _ _ _ h
          refine ⟨?_, ?_, ?_, ?_⟩
          · rw [ih1, hacc]; simp; ring
          · rw [ih2, htr]
            simp only [List.length_cons, pairEvents_succ]
            cases train <;>
              simp [eventsOf_append, List.append_assoc]
          · rw [ih3, htr]
            cases train <;>
              simp [updateCalls_append, List.append_assoc]
          · intro e he1 he2
            rw [ih4 e he1 he2, htr]
            cases train <;>
              simp [notifyRecs_append, notifyRecs_cons_notify, he1, he2,
                Ne.symm he1, Ne.symm he2]

/-- Normal completion of `Trainer._process`: the events grow by the phase
pattern, the update strategy runs once per training batch and never in
validation, records of events other than the phase's own are untouched, and
the record passed to the phase-end notification carries the mean loss: the
summed per-batch losses divided by `ceil(size / batch_size)`. -/
theorem process_ok {C : Type} {cfg : TrainerCfg C} {ht : HookTable C}
    {ds : Dataset C} {bs : ℕ} {logs : Rec C} {train : Bool} {s s' : St C}
    (h : process cfg ht ds bs logs train s = (s', none)) :
    eventsOf s'.trace =
      eventsOf s.trace ++ phaseEvents train (ds.batch bs train).length ∧
    updateCalls s'.trace = updateCalls s.trace ++
      (if train then
        (ds.batch bs train).map (fun b => (cfg.optimizer, batchLoss cfg b))
       else []) ∧
    (∀ e, e ≠ TrainEvent.EPOCH_TRAIN_BEGIN →
      e ≠ TrainEvent.EPOCH_VALIDATE_BEGIN →
      e ≠ TrainEvent.EPOCH_TRAIN_END → e ≠ TrainEvent.EPOCH_VALIDATE_END →
      e ≠ TrainEvent.BATCH_BEGIN → e ≠ TrainEvent.BATCH_END →
      notifyRecs e s'.trace = notifyRecs e s.trace) ∧
    (∃ rEnd : Rec C,
      notifyRecs (if train then TrainEvent.EPOCH_TRAIN_END
          else TrainEvent.EPOCH_VALIDATE_END) s'.trace =
        notifyRecs (if train then TrainEvent.EPOCH_TRAIN_END
          else TrainEvent.EPOCH_VALIDATE_END) s.trace ++ [rEnd] ∧
      Rec.get rEnd .loss =
        .rat ((((ds.batch bs train).map (batchLoss cfg)).sum) /
          (ceilDiv ds.size bs : ℚ))) := by
  unfold process at h
  simp only [] at h
  rcases h1 : runCbs
      (ht (if train then TrainEvent.EPOCH_TRAIN_BEGIN
        else TrainEvent.EPOCH_VALIDATE_BEGIN))
      (((logs.set .size (.nat ds.size)).set .num_batches
          (.nat (ceilDiv ds.size bs))).set .loss .none) s.frames with
    ⟨logs₄, fs₁, err₁⟩
  rw [notify_eq, h1] at h
  cases err₁ with
  | some e => simp at h
  | none =>
      simp only [] at h
      rcases h2 : processLoop cfg ht train (ceilDiv ds.size bs)
          (ds.batch bs train) 0 0
          ⟨s.trace ++ [Act.notify (if train then TrainEvent.EPOCH_TRAIN_BEGIN
              else TrainEvent.EPOCH_VALIDATE_BEGIN)
            (((logs.set .size (.nat ds.size)).set .num_batches
                (.nat (ceilDiv ds.size bs))).set .loss .none)], fs₁⟩ with
        ⟨accL, s₂, err₂⟩
      rw [h2] at h
      cases err₂ with
      | some e => simp at h
      | none =>
          simp only [] at h
          rw [notify_eq] at h
          simp only [Prod.mk.injEq] at h
          obtain ⟨h5, -⟩ := h
          obtain ⟨hacc, hev, hupd, hrec⟩ := loop_ok _ _ _ _ _ _ h2
          subst h5
          have hsum : accL = ((ds.batch bs train).map (batchLoss cfg)).sum := by
            rw [hacc]; ring
          refine ⟨?_, ?_, ?_, ?_⟩
          · rw [eventsOf_append, hev]
            simp [phaseEvents, List.append_assoc]
          · rw [updateCalls_append, hupd]
            simp
          · intro e he1 he2 he3 he4 he5 he6
            rw [notifyRecs_append, hrec e he5 he6, notifyRecs_append,
              notifyRecs_cons_notify, notifyRecs_cons_notify]
            cases train <;>
              simp [he1, he2, he3, he4, Ne.symm he1, Ne.symm he2,
                Ne.symm he3, Ne.symm he4]
          · refine ⟨(logs₄.set .loss (.rat 0)).set .loss
                (.rat (accL / (ceilDiv ds.size bs : ℚ))), ?_, ?_⟩
            · rw [notifyRecs_append,
                hrec _ (by cases train <;> simp) (by cases train <;> simp),
                notifyRecs_append, notifyRecs_cons_notify,
                notifyRecs_cons_notify]
              cases train <;> simp
            · rw [hsum, Rec.get_set]

/-- Normal completion of one epoch of `main_loop`: the events grow by the
epoch pattern (training phase, then validation phase exactly when validation
data is present), and the record passed to `EPOCH_END` is the very record
that came out of the `EPOCH_BEGIN` notification — none of the fields
`_process` writes into its private copy reach it. -/
theorem runEpoch_ok {C : Type} {cfg : TrainerCfg C} {ht : HookTable C}
    {trainDs : Dataset C} {valDs : Option (Dataset C)} {bs ep : ℕ}
    {s s' : St C}
    (h : runEpoch cfg ht trainDs valDs bs ep s = (s', none)) :
    eventsOf s'.trace = eventsOf s.trace ++
      epochEvents (trainDs.batch bs true).length
        (valDs.map fun d => (d.batch bs false).length) ∧
    notifyRecs .EPOCH_END s'.trace = notifyRecs .EPOCH_END s.trace ++
      [(runCbs (ht .EPOCH_BEGIN) (initEpochRec ep trainDs.size)
          s.frames).1] := by
  unfold runEpoch at h
  rcases h1 : runCbs (ht .EPOCH_BEGIN) (initEpochRec ep trainDs.size)
      s.frames with ⟨el₁, fs₁, err₁⟩
  rw [notify_eq, h1] at h
  cases err₁ with
  | some e => simp at h
  | none =>
      simp only [] at h
      rcases h2 : process cfg ht trainDs bs el₁ true
          ⟨s.trace ++ [Act.notify TrainEvent.EPOCH_BEGIN
            (initEpochRec ep trainDs.size)], fs₁⟩ with ⟨s₂, err₂⟩
      rw [h2] at h
      cases err₂ with
      | some e => simp at h
      | none =>
          cases valDs with
          | none =>
              simp only [] at h
              rw [notify_eq] at h
              simp only [Prod.mk.injEq] at h
              obtain ⟨h5, -⟩ := h
              obtain ⟨p1, -, p3, -⟩ := process_ok h2
              subst h5
              constructor
              · simp [p1, epochEvents, List.append_assoc]
              · rw [notifyRecs_append,
                  p3 .EPOCH_END (by decide) (by decide) (by decide)
                    (by decide) (by decide) (by decide),
                  notifyRecs_append, notifyRecs_cons_notify,
                  notifyRecs_cons_notify]
                simp
          | some vd =>
              simp only [] at h
              rcases h3 : process cfg ht vd bs el₁ false s₂ with ⟨s₃, err₃⟩
              rw [h3] at h
              cases err₃ with
              | some e => simp at h
              | none =>
                  simp only [] at h
                  rw [notify_eq] at h
                  simp only [Prod.mk.injEq] at h
                  obtain ⟨h5, -⟩ := h
                  obtain ⟨p1, -, p3, -⟩ := process_ok h2
                  obtain ⟨q1, -, q3, -⟩ := process_ok h3
                  subst h5
                  constructor
                  · simp [q1, p1, epochEvents, List.append_assoc]
                  · rw [notifyRecs_append,
                      q3 .EPOCH_END (by decide) (by decide) (by decide)
                        (by decide) (by decide) (by decide),
                      p3 .EPOCH_END (by decide) (by decide) (by decide)
                        (by decide) (by decide) (by decide),
                      notifyRecs_append, notifyRecs_cons_notify,
                      notifyRecs_cons_notify]
                    simp

@[simp] theorem emptySt_trace {C : Type} : (emptySt (C := C)).trace = [] := rfl

@[simp] theorem emptySt_frames {C : Type} : (emptySt (C := C)).frames = [] :=
  rfl

/-- Normal completion of the epoch loop: one epoch event pattern per epoch
index. -/
theorem epochLoop_ok {C : Type} {cfg : TrainerCfg C} {ht : HookTable C}
    {trainDs : Dataset C} {valDs : Option (Dataset C)} {bs : ℕ} :
    ∀ (eps : List ℕ) (s s' : St C),
    epochLoop cfg ht trainDs valDs bs eps s = (s', none) →
    eventsOf s'.trace = eventsOf s.trace ++
      (List.replicate eps.length
        (epochEvents (trainDs.batch bs true).length
          (valDs.map fun d => (d.batch bs false).length))).flatten := by
  intro eps
  induction eps with
  | nil =>
      intro s s' h
      unfold epochLoop at h
      simp only [Prod.mk.injEq] at h
      obtain ⟨h1, -⟩ := h
      subst h1
      simp
  | cons e rest ih =>
      intro s s' h
      unfold epochLoop at h
      rcases hre : runEpoch cfg ht trainDs valDs bs e s with ⟨s₁, err₁⟩
      rw [hre] at h
      cases err₁ with
      | some err => simp at h
      | none =>
          simp only [] at h
          rw [ih s₁ s' h, (runEpoch_ok hre).1]
          simp [List.replicate_succ, List.append_assoc]

/-- Normal completion of `fit`: the whole run notifies exactly the
state-machine event sequence of the spec. -/
theorem fit_ok_events {C : Type} {cfg : TrainerCfg C} {ht₀ : HookTable C}
    {x : FitX C} {y : Option (List (PyVal C))} {bs epochs : ℕ} {vd : VdArg C}
    {td : Dataset C} {vds : Option (Dataset C)} {s : St C} {hist : List ℚ}
    (hx : resolveXY x y = .ok td) (hv : resolveVd vd = .ok vds)
    (hrun : fit cfg ht₀ x y bs epochs vd = (s, .ok hist)) :
    eventsOf s.trace = fitEvents epochs (td.batch bs true).length
      (vds.map fun d => (d.batch bs false).length) := by
  unfold fit at hrun
  rw [hx, hv] at hrun
  simp only [] at hrun
  rw [notify_eq] at hrun
  simp only [emptySt_trace, emptySt_frames, List.nil_append] at hrun
  rcases h1 : runCbs (fitHooks cfg ht₀ TrainEvent.TRAIN_BEGIN) ([] : Rec C)
      ([] : List Frame) with ⟨r₁, fs₁, err₁⟩
  rw [h1] at hrun
  cases err₁ with
  | some e => simp at hrun
  | none =>
      simp only [] at hrun
      rcases h2 : epochLoop cfg (fitHooks cfg ht₀) td vds bs
          (epochsList epochs)
          ⟨[Act.notify TrainEvent.TRAIN_BEGIN []], [] :: fs₁⟩ with ⟨s₃, errL⟩
      rw [h2] at hrun
      cases errL with
      | some e => simp at hrun
      | none =>
          simp only [] at hrun
          rw [notify_eq] at hrun
          rcases h3 : runCbs (fitHooks cfg ht₀ TrainEvent.TRAIN_END)
              ([] : Rec C) s₃.frames.tail with ⟨r₃, fs₃, err₃⟩
          rw [h3] at hrun
          cases err₃ with
          | some e => simp at hrun
          | none =>
              simp only [Prod.mk.injEq] at hrun
              obtain ⟨h5, -⟩ := hrun
              subst h5
              have hev := epochLoop_ok (epochsList epochs) _ _ h2
              simp only [] at hev
              rw [eventsOf_append, hev]
              simp [fitEvents, epochsList, List.append_assoc]

theorem resOk_eq {α : Type} (r : Except Err α) (a : α) (h : resOk r = some a) :
    r = .ok a := by
  cases r with
  | error e => simp [resOk] at h
  | ok b => simp [resOk] at h; rw [h]

theorem resErr_eq {α : Type} (r : Except Err α) (e : Err)
    (h : resErr r = some e) : r = .error e := by
  cases r with
  | error e' => simp [resErr] at h; rw [h]
  | ok b => simp [resErr] at h

theorem validate_begin_not_in_fitEvents (epochs kt : ℕ) :
    TrainEvent.EPOCH_VALIDATE_BEGIN ∉ fitEvents epochs kt none := by
  intro hmem
  simp [fitEvents, epochEvents, phaseEvents, pairEvents, List.mem_flatten,
    List.mem_replicate] at hmem
  obtain ⟨l, ⟨-, rfl⟩, hm⟩ := hmem
  simp [List.mem_flatten, List.mem_replicate] at hm
  obtain ⟨l', ⟨-, rfl⟩, hm'⟩ := hm
  simp at hm'

theorem validate_end_not_in_fitEvents (epochs kt : ℕ) :
    TrainEvent.EPOCH_VALIDATE_END ∉ fitEvents epochs kt none := by
  intro hmem
  simp [fitEvents, epochEvents, phaseEvents, pairEvents, List.mem_flatten,
    List.mem_replicate] at hmem
  obtain ⟨l, ⟨-, rfl⟩, hm⟩ := hmem
  simp [List.mem_flatten, List.mem_replicate] at hm
  obtain ⟨l', ⟨-, rfl⟩, hm'⟩ := hm
  simp at hm'

/-- C1: for every `fit` call that returns, events are notified in the
state-machine order: `TRAIN_BEGIN` first; then for each epoch an
`EPOCH_BEGIN`, the training phase (`EPOCH_TRAIN_BEGIN`, one
`BATCH_BEGIN`/`BATCH_END` pair per training batch, `EPOCH_TRAIN_END`), the
validation phase with its batch pairs exactly when validation data was
given, then `EPOCH_END`; finally `TRAIN_END`.  When `validation_data` is
omitted no `EPOCH_VALIDATE_BEGIN` or `EPOCH_VALIDATE_END` is ever
raised. -/
theorem fit_event_order {C : Type} (cfg : TrainerCfg C) (ht₀ : HookTable C)
    (x : FitX C) (y : Option (List (PyVal C))) (bs epochs : ℕ) (vd : VdArg C)
    (td : Dataset C) (vds : Option (Dataset C)) (s : St C) (hist : List ℚ)
    (hx : resolveXY x y = .ok td) (hv : resolveVd vd = .ok vds)
    (hrun : fit cfg ht₀ x y bs epochs vd = (s, .ok hist)) :
    eventsOf s.trace = fitEvents epochs (td.batch bs true).length
      (vds.map fun d => (d.batch bs false).length) ∧
    (vd = .vNone →
      TrainEvent.EPOCH_VALIDATE_BEGIN ∉ eventsOf s.trace ∧
      TrainEvent.EPOCH_VALIDATE_END ∉ eventsOf s.trace) := by
  refine ⟨fit_ok_events hx hv hrun, ?_⟩
  rintro rfl
  have hvn : vds = none := by
    simpa [resolveVd] using hv.symm
  subst hvn
  rw [fit_ok_events hx hv hrun]
  simp only [Option.map_none']
  exact ⟨validate_begin_not_in_fitEvents _ _,
    validate_end_not_in_fitEvents _ _⟩

/-- A concrete trainer over rational atoms: the forward function returns a
fixed atom and the loss function reads the target atom's value. -/
def cfgW : TrainerCfg ℚ where
  optimizer := 0
  forward := fun _ => .atom 0
  lossfun := fun _ ts =>
    match ts with
    | .atom q => q
    | _ => 0

/-- A concrete dataset of declared size `n` whose batch operation yields one
single-column batch per entry of `qs`. -/
def dsW (n : ℕ) (qs : List ℚ) : Dataset ℚ where
  size := n
  batch := fun _ _ => qs.map fun q => [PyVal.atom q]

theorem fit_event_order_witness :
    resolveXY (.ds (dsW 3 [1, 2])) none = .ok (dsW 3 [1, 2]) ∧
    resolveVd (.vNone : VdArg ℚ) = .ok none ∧
    eventsOf (fit cfgW emptyHooks (.ds (dsW 3 [1, 2])) none 2 2
        .vNone).1.trace = fitEvents 2 2 none ∧
    TrainEvent.EPOCH_VALIDATE_BEGIN ∉
      eventsOf (fit cfgW emptyHooks (.ds (dsW 3 [1, 2])) none 2 2
        .vNone).1.trace := by
  have h2 : resOk (fit cfgW emptyHooks (.ds (dsW 3 [1, 2])) none 2 2
      .vNone).2 = some [] := by decide
  have hs := resOk_eq _ _ h2
  have hrun : fit cfgW emptyHooks (.ds (dsW 3 [1, 2])) none 2 2 .vNone =
      ((fit cfgW emptyHooks (.ds (dsW 3 [1, 2])) none 2 2 .vNone).1,
        .ok []) := by
    have heta : fit cfgW emptyHooks (.ds (dsW 3 [1, 2])) none 2 2 .vNone =
        ((fit cfgW emptyHooks (.ds (dsW 3 [1, 2])) none 2 2 .vNone).1,
          (fit cfgW emptyHooks (.ds (dsW 3 [1, 2])) none 2 2 .vNone).2) := rfl
    rw [heta, hs]
  have hmain := fit_event_order cfgW emptyHooks (.ds (dsW 3 [1, 2])) none 2 2
    .vNone (dsW 3 [1, 2]) none _ [] rfl rfl hrun
  refine ⟨rfl, rfl, ?_, ?_⟩
  · have := hmain.1
    simpa [dsW] using this
  · have := (hmain.2 rfl).1
    exact this

theorem batchLoss_cfgW (q : ℚ) : batchLoss cfgW [PyVal.atom q] = q := rfl

/-- C2: for every epoch pass over the training data, the record passed to
`EPOCH_TRAIN_END` reports as `loss` the sum of the per-batch losses divided
by `ceil(dataset_size / batch_size)` — the divisor depends only on the
declared size and the batch size, not on how many batches the dataset
actually yields. -/
theorem epoch_mean_loss {C : Type} (cfg : TrainerCfg C) (ht : HookTable C)
    (ds : Dataset C) (bs : ℕ) (logs : Rec C) (s s' : St C)
    (hbs : 0 < bs) (hsz : 0 < ds.size)
    (h : process cfg ht ds bs logs true s = (s', none)) :
    ∃ r, notifyRecs .EPOCH_TRAIN_END s'.trace =
        notifyRecs .EPOCH_TRAIN_END s.trace ++ [r] ∧
      Rec.get r .loss =
        .rat ((((ds.batch bs true).map (batchLoss cfg)).sum) /
          (ceilDiv ds.size bs : ℚ)) := by
  have := (process_ok h).2.2.2
  simpa using this

theorem epoch_mean_loss_witness :
    0 < 32 ∧ 0 < (dsW 100 [1, 2, 3, 4]).size ∧
    ∃ r, notifyRecs .EPOCH_TRAIN_END
        (process cfgW emptyHooks (dsW 100 [1, 2, 3, 4]) 32 [] true
          emptySt).1.trace = [r] ∧
      Rec.get r .loss = .rat (5 / 2) := by
  have hnone : (process cfgW emptyHooks (dsW 100 [1, 2, 3, 4]) 32 [] true
      emptySt).2 = none := by decide
  have hrun : process cfgW emptyHooks (dsW 100 [1, 2, 3, 4]) 32 [] true
      emptySt = ((process cfgW emptyHooks (dsW 100 [1, 2, 3, 4]) 32 [] true
        emptySt).1, none) := by
    have heta : process cfgW emptyHooks (dsW 100 [1, 2, 3, 4]) 32 [] true
        emptySt = ((process cfgW emptyHooks (dsW 100 [1, 2, 3, 4]) 32 []
          true emptySt).1, (process cfgW emptyHooks (dsW 100 [1, 2, 3, 4])
          32 [] true emptySt).2) := rfl
    rw [heta, hnone]
  obtain ⟨r, hr1, hr2⟩ := epoch_mean_loss cfgW emptyHooks
    (dsW 100 [1, 2, 3, 4]) 32 [] emptySt _ (by decide) (by decide) hrun
  refine ⟨by decide, by decide, r, ?_, ?_⟩
  · simpa using hr1
  · rw [hr2]
    have hval : ((((dsW 100 [1, 2, 3, 4]).batch 32 true).map
        (batchLoss cfgW)).sum / (ceilDiv (dsW 100 [1, 2, 3, 4]).size 32 :
          ℚ)) = 5 / 2 := by
      have hceil : ceilDiv (dsW 100 [1, 2, 3, 4]).size 32 = 4 := by decide
      rw [hceil]
      simp [dsW, batchLoss_cfgW]
      norm_num
    rw [hval]

/-- C3: when an accuracy function is supplied, `fit` registers a hook on
`BATCH_END` that computes accuracy from the record's predictions and
targets, and within a single `BATCH_END` notification that value is added
into the Reporter's active aggregation frame — the hook's contribution is
part of the Reporter's aggregate for that batch. -/
theorem accuracy_hook_feeds_reporter {C : Type} (cfg : TrainerCfg C)
    (ht₀ : HookTable C) (acc : PyVal C → PyVal C → ℚ)
    (hacc : cfg.accFunc = some acc) (hno : ht₀ .BATCH_END = [])
    (r : Rec C) (f : Frame) (fs : List Frame) (s : St C)
    (hs : s.frames = f :: fs) :
    fitHooks cfg ht₀ .BATCH_END = ht₀ .BATCH_END ++ [accuracyHook acc] ∧
    notify (fitHooks cfg ht₀) .BATCH_END r s =
      (r, ⟨s.trace ++ [Act.notify .BATCH_END r],
        (f.add "accuracy" (acc (r.pyval .ys) (r.pyval .ts))) :: fs⟩,
        none) := by
  constructor
  · simp [fitHooks, hacc, addHook]
  · rw [notify_eq]
    simp [fitHooks, hacc, addHook, hno, runCbs, accuracyHook, reportMetrics,
      hs]

/-- A constant accuracy function for the concrete runs. -/
def accW : PyVal ℚ → PyVal ℚ → ℚ := fun _ _ => 9 / 10

/-- The concrete trainer with the constant accuracy function supplied. -/
def cfgW3 : TrainerCfg ℚ := { cfgW with accFunc := some accW }

/-- A concrete `BATCH_END` record carrying predictions and targets. -/
def recW : Rec ℚ :=
  [(Key.ys, RVal.val (.atom 1)), (Key.ts, RVal.val (.atom 2))]

theorem accuracy_hook_feeds_reporter_witness :
    cfgW3.accFunc = some accW ∧ emptyHooks (C := ℚ) .BATCH_END = [] ∧
    (⟨[], [[]]⟩ : St ℚ).frames = [] :: [] ∧
    fitHooks cfgW3 emptyHooks .BATCH_END = [accuracyHook accW] ∧
    notify (fitHooks cfgW3 emptyHooks) .BATCH_END recW (⟨[], [[]]⟩ : St ℚ) =
      (recW, ⟨[Act.notify .BATCH_END recW], [[("accuracy", 1, 9 / 10)]]⟩,
        none) := by
  have hmain := accuracy_hook_feeds_reporter cfgW3 emptyHooks accW rfl rfl
    recW [] [] (⟨[], [[]]⟩ : St ℚ) rfl
  refine ⟨rfl, rfl, rfl, by simpa using hmain.1, ?_⟩
  have h2 := hmain.2
  simpa [accW, Frame.add] using h2

/-- C4 (amended): `fit` validates its `x`/`y` arguments, but the two
malformed combinations fail differently: a non-dataset `x` without `y`
raises the `ValueError` (`InvalidArgument`), while a dataset `x` together
with a `y` trips the bare `assert y is None` and raises an
`AssertionError`, not `InvalidArgument`; a dataset with `y = None` and a
raw pair both pass validation. -/
theorem fit_argument_validation {C : Type} :
    (∀ (cfg : TrainerCfg C) (ht₀ : HookTable C) (d : Dataset C)
      (yr : List (PyVal C)) (bs ep : ℕ) (vd : VdArg C),
      (fit cfg ht₀ (.ds d) (some yr) bs ep vd).2 =
        .error .assertionError) ∧
    (∀ (cfg : TrainerCfg C) (ht₀ : HookTable C) (xr : List (PyVal C))
      (bs ep : ℕ) (vd : VdArg C),
      (fit cfg ht₀ (.raw xr) none bs ep vd).2 =
        .error .invalidArgument) ∧
    (∀ (d : Dataset C), resolveXY (.ds d) none = .ok d) ∧
    (∀ (xr yr : List (PyVal C)),
      resolveXY (.raw xr) (some yr) = .ok (Dataset.fromXY xr yr)) := by
  refine ⟨?_, ?_, fun d => rfl, fun xr yr => rfl⟩
  · intro cfg ht₀ d yr bs ep vd
    simp [fit, resolveXY]
  · intro cfg ht₀ xr bs ep vd
    simp [fit, resolveXY]

/-- C4 counterexample: `fit(x=dataset, y=[1,2,3])` does not fail with the
`InvalidArgument` error (the `ValueError`) the claim names — it fails with
an `AssertionError` from the bare `assert y is None`. -/
theorem fit_dataset_plus_y_counterexample :
    resErr (fit cfgW emptyHooks (.ds (dsW 3 []))
      (some [PyVal.atom 1, PyVal.atom 2, PyVal.atom 3]) 32 10 .vNone).2 =
      some .assertionError ∧
    resErr (fit cfgW emptyHooks (.ds (dsW 3 []))
      (some [PyVal.atom 1, PyVal.atom 2, PyVal.atom 3]) 32 10 .vNone).2 ≠
      some .invalidArgument := by
  refine ⟨by decide, by decide⟩

theorem step_val_no_update {C : Type} (cfg : TrainerCfg C)
    (ht : HookTable C) (nb idx : ℕ) (b : List (PyVal C)) (al : ℚ)
    (s : St C) :
    updateCalls ((processBatchStep cfg ht false nb idx b al s).2.1).trace =
      updateCalls s.trace := by
  rcases hq : runCbs (ht .BATCH_BEGIN)
      (initBatchLogs (effConvert cfg.converter) false idx nb b) s.frames
    with ⟨bl₁, fs₁, err₁⟩
  unfold processBatchStep
  rw [notify_eq, hq]
  cases err₁ with
  | some e => simp
  | none =>
      simp only []
      rw [notify_eq]
      simp

theorem loop_val_no_update {C : Type} (cfg : TrainerCfg C)
    (ht : HookTable C) (nb : ℕ) :
    ∀ (batches : List (List (PyVal C))) (idx : ℕ) (al : ℚ) (s : St C),
    updateCalls ((processLoop cfg ht false nb batches idx al s).2.1).trace =
      updateCalls s.trace := by
  intro batches
  induction batches with
  | nil => intro idx al s; simp [processLoop]
  | cons b rest ih =>
      intro idx al s
      unfold processLoop
      rcases hstep : processBatchStep cfg ht false nb idx b al s with
        ⟨a₁, s₁, e₁⟩
      have hs₁ := step_val_no_update cfg ht nb idx b al s
      rw [hstep] at hs₁
      simp only [] at hs₁
      cases e₁ with
      | some e => simpa using hs₁
      | none =>
          simp only []
          rw [ih (idx + 1) a₁ s₁, hs₁]

theorem process_val_no_update {C : Type} (cfg : TrainerCfg C)
    (ht : HookTable C) (ds : Dataset C) (bs : ℕ) (logs : Rec C) (s : St C) :
    updateCalls ((process cfg ht ds bs logs false s).1).trace =
      updateCalls s.trace := by
  unfold process
  simp only [Bool.false_eq_true, if_false]
  rcases h1 : runCbs (ht TrainEvent.EPOCH_VALIDATE_BEGIN)
      (((logs.set .size (.nat ds.size)).set .num_batches
        (.nat (ceilDiv ds.size bs))).set .loss .none) s.frames with
    ⟨logs₄, fs₁, err₁⟩
  rw [notify_eq, h1]
  cases err₁ with
  | some e => simp
  | none =>
      simp only []
      rcases h2 : processLoop cfg ht false (ceilDiv ds.size bs)
          (ds.batch bs false) 0 0
          ⟨s.trace ++ [Act.notify TrainEvent.EPOCH_VALIDATE_BEGIN
            (((logs.set .size (.nat ds.size)).set .num_batches
              (.nat (ceilDiv ds.size bs))).set .loss .none)], fs₁⟩ with
        ⟨accL, s₂, err₂⟩
      have hl := loop_val_no_update cfg ht (ceilDiv ds.size bs)
        (ds.batch bs false) 0 0
        ⟨s.trace ++ [Act.notify TrainEvent.EPOCH_VALIDATE_BEGIN
          (((logs.set .size (.nat ds.size)).set .num_batches
            (.nat (ceilDiv ds.size bs))).set .loss .none)], fs₁⟩
      rw [h2] at hl
      simp only [] at hl
      simp only [updateCalls_append, updateCalls_cons_notify,
        updateCalls_nil, List.append_nil] at hl
      cases err₂ with
      | some e => simpa using hl
      | none =>
          simp only []
          rw [notify_eq]
          simpa using hl

/-- C5: the update strategy is invoked with (optimizer, loss) only during
training batches — a whole validation pass adds no update invocation — and
within a training batch it runs strictly after the loss call and strictly
before the `BATCH_END` notification. -/
theorem update_strategy_timing {C : Type} :
    (∀ (cfg : TrainerCfg C) (ht : HookTable C) (ds : Dataset C) (bs : ℕ)
      (logs : Rec C) (s : St C),
      updateCalls ((process cfg ht ds bs logs false s).1).trace =
        updateCalls s.trace) ∧
    (∀ (cfg : TrainerCfg C) (ht : HookTable C) (nb idx : ℕ)
      (b : List (PyVal C)) (al acc' : ℚ) (s s' : St C),
      processBatchStep cfg ht true nb idx b al s = (acc', s', none) →
      ∃ bl₂, s'.trace = s.trace ++
        [Act.notify .BATCH_BEGIN (initBatchLogs (effConvert cfg.converter)
           true idx nb b),
         Act.forwardCall (batchArgs (effConvert cfg.converter) b)
           (batchYs cfg b),
         Act.lossCall (batchYs cfg b) (batchTs (effConvert cfg.converter) b)
           (batchLoss cfg b),
         Act.updateCall cfg.optimizer (batchLoss cfg b),
         Act.notify .BATCH_END bl₂]) := by
  refine ⟨process_val_no_update, ?_⟩
  intro cfg ht nb idx b al acc' s s' h
  obtain ⟨-, bl₂, -, -, htr⟩ := step_ok h
  refine ⟨bl₂, ?_⟩
  rw [htr]
  simp [List.append_assoc]

theorem update_strategy_timing_witness :
    updateCalls ((process cfgW emptyHooks (dsW 4 [1, 2]) 32 [] false
      emptySt).1).trace = [] ∧
    (∃ bl₂, ((processBatchStep cfgW emptyHooks true 1 0 [PyVal.atom 5] 0
        emptySt).2.1).trace =
      [Act.notify .BATCH_BEGIN (initBatchLogs (effConvert cfgW.converter)
         true 0 1 [PyVal.atom 5]),
       Act.forwardCall (batchArgs (effConvert cfgW.converter)
         [PyVal.atom 5]) (batchYs cfgW [PyVal.atom 5]),
       Act.lossCall (batchYs cfgW [PyVal.atom 5])
         (batchTs (effConvert cfgW.converter) [PyVal.atom 5])
         (batchLoss cfgW [PyVal.atom 5]),
       Act.updateCall cfgW.optimizer (batchLoss cfgW [PyVal.atom 5]),
       Act.notify .BATCH_END bl₂]) := by
  constructor
  · have := (update_strategy_timing (C := ℚ)).1 cfgW emptyHooks (dsW 4 [1, 2])
      32 [] emptySt
    simpa using this
  · have hstep : processBatchStep cfgW emptyHooks true 1 0 [PyVal.atom 5] 0
        emptySt = ((processBatchStep cfgW emptyHooks true 1 0 [PyVal.atom 5]
          0 emptySt).1, (processBatchStep cfgW emptyHooks true 1 0
          [PyVal.atom 5] 0 emptySt).2.1, none) := by
      have heta : processBatchStep cfgW emptyHooks true 1 0 [PyVal.atom 5] 0
          emptySt = ((processBatchStep cfgW emptyHooks true 1 0
            [PyVal.atom 5] 0 emptySt).1, (processBatchStep cfgW emptyHooks
            true 1 0 [PyVal.atom 5] 0 emptySt).2.1,
            (processBatchStep cfgW emptyHooks true 1 0 [PyVal.atom 5] 0
              emptySt).2.2) := rfl
      have hnone : (processBatchStep cfgW emptyHooks true 1 0 [PyVal.atom 5]
          0 emptySt).2.2 = none := by decide
      rw [heta, hnone]
    obtain ⟨bl₂, htr⟩ := (update_strategy_timing (C := ℚ)).2 cfgW emptyHooks
      1 0 [PyVal.atom 5] 0 _ emptySt _ hstep
    exact ⟨bl₂, by simpa using htr⟩

/-- A hook that raises (an arbitrary user exception, modelled as
`Err.other 7`) when notified for the batch with index 2. -/
def failingHook : Cb ℚ := fun r fs =>
  (r, fs,
    match r.get .batch_index with
    | .nat 2 => some (.other 7)
    | _ => none)

/-- The callback table with the failing hook registered on `BATCH_BEGIN`. -/
def htC6 : HookTable ℚ := addHook .BATCH_BEGIN failingHook emptyHooks

/-- C6: `fit` does not catch exceptions from callbacks: with a hook that
raises on `BATCH_BEGIN` of batch index 2, the run returns that very error,
the trace shows `BATCH_END` for batches 0 and 1 only, no further batch or
epoch events after the failing `BATCH_BEGIN`, and the two update-strategy
invocations already performed (batches 0 and 1, with their losses) remain
in place. -/
theorem exception_aborts_run :
    resErr (fit cfgW htC6 (.ds (dsW 100 [1, 2, 3, 4])) none 32 3
      .vNone).2 = some (.other 7) ∧
    eventsOf (fit cfgW htC6 (.ds (dsW 100 [1, 2, 3, 4])) none 32 3
        .vNone).1.trace =
      [.TRAIN_BEGIN, .EPOCH_BEGIN, .EPOCH_TRAIN_BEGIN, .BATCH_BEGIN,
       .BATCH_END, .BATCH_BEGIN, .BATCH_END, .BATCH_BEGIN] ∧
    updateCalls (fit cfgW htC6 (.ds (dsW 100 [1, 2, 3, 4])) none 32 3
        .vNone).1.trace = [(0, 1), (0, 2)] := by
  refine ⟨by decide, by decide, by decide⟩

/-- C7 (amended): `validation_data` accepts a dataset or a two-element
(inputs, targets) sequence; any other non-empty sequence fails with
`InvalidArgument`; but because the check is guarded by Python truthiness,
an empty sequence — also an "other shape" — is silently treated as no
validation data instead of failing. -/
theorem validation_data_shapes {C : Type} :
    (∀ (d : Dataset C), resolveVd (.ds d) = .ok (some d)) ∧
    (∀ (a b : List (PyVal C)),
      resolveVd (.items [a, b]) = .ok (some (Dataset.fromXY a b))) ∧
    (∀ (cfg : TrainerCfg C) (ht₀ : HookTable C) (xr yr : List (PyVal C))
      (bs ep : ℕ) (l : List (List (PyVal C))),
      l ≠ [] → l.length ≠ 2 →
      (fit cfg ht₀ (.raw xr) (some yr) bs ep (.items l)).2 =
        .error .invalidArgument) ∧
    resolveVd (.items ([] : List (List (PyVal C)))) = .ok none := by
  refine ⟨fun d => rfl, fun a b => rfl, ?_, rfl⟩
  intro cfg ht₀ xr yr bs ep l hne hlen
  have hvd : resolveVd (C := C) (.items l) = .error .invalidArgument := by
    rcases l with - | ⟨a, - | ⟨b, - | ⟨c, t⟩⟩⟩
    · exact absurd rfl hne
    · rfl
    · exact absurd rfl hlen
    · rfl
  simp [fit, resolveXY, hvd]

theorem validation_data_shapes_witness :
    ([[PyVal.atom (1 : ℚ)]] : List (List (PyVal ℚ))) ≠ [] ∧
    ([[PyVal.atom (1 : ℚ)]] : List (List (PyVal ℚ))).length ≠ 2 ∧
    (fit cfgW emptyHooks (.raw [PyVal.atom 1]) (some [PyVal.atom 2]) 32 1
      (.items [[PyVal.atom 1]])).2 = .error .invalidArgument := by
  refine ⟨by simp, by simp, ?_⟩
  exact (validation_data_shapes (C := ℚ)).2.2.1 cfgW emptyHooks
    [PyVal.atom 1] [PyVal.atom 2] 32 1 [[PyVal.atom 1]] (by simp)
    (by simp)

/-- C7 counterexample: the empty sequence is a shape other than a dataset
or a two-element pair, yet `fit` does not fail with `InvalidArgument` — it
runs to completion treating it as absent validation data (Python
truthiness of `if validation_data:`). -/
theorem empty_validation_data_counterexample :
    resolveVd (VdArg.items ([] : List (List (PyVal ℚ)))) = .ok none ∧
    resOk (fit cfgW emptyHooks (.raw [PyVal.atom 1, PyVal.atom 2])
      (some [PyVal.atom 3, PyVal.atom 4]) 32 1 (.items [])).2 = some [] ∧
    resErr (fit cfgW emptyHooks (.raw [PyVal.atom 1, PyVal.atom 2])
      (some [PyVal.atom 3, PyVal.atom 4]) 32 1 (.items [])).2 ≠
      some .invalidArgument := by
  refine ⟨rfl, by decide, by decide⟩


theorem batchArgs_id {C : Type} (b : List (PyVal C)) :
    batchArgs (effConvert none) b = b.dropLast := by
  unfold batchArgs batchInputsVal
  simp only []
  by_cases hl : b.dropLast.length = 1
  · obtain ⟨a, ha⟩ := List.length_eq_one.mp hl
    rw [if_pos hl, ha]
    rfl
  · rw [if_neg hl]
    rfl

/-- C8: for every processed batch, the columns split into inputs (all but
the last column) and targets (the last column); the conversion function —
the identity when no converter is configured — is applied to inputs and
targets; the forward function receives the converted inputs unpacked as
positional arguments, yielding the predictions; and the loss function
receives (predictions, converted targets).  The trace of one batch records
exactly these calls. -/
theorem batch_split_convert_forward {C : Type} (cfg : TrainerCfg C)
    (ht : HookTable C) (train : Bool) (nb idx : ℕ) (b : List (PyVal C))
    (al acc' : ℚ) (s s' : St C)
    (h : processBatchStep cfg ht train nb idx b al s = (acc', s', none)) :
    (∃ bl₂, s'.trace = s.trace ++
      ([Act.notify .BATCH_BEGIN (initBatchLogs (effConvert cfg.converter)
          train idx nb b),
        Act.forwardCall (batchArgs (effConvert cfg.converter) b)
          (batchYs cfg b),
        Act.lossCall (batchYs cfg b) (batchTs (effConvert cfg.converter) b)
          (batchLoss cfg b)] ++
       (if train then [Act.updateCall cfg.optimizer (batchLoss cfg b)]
        else []) ++ [Act.notify .BATCH_END bl₂])) ∧
    batchYs cfg b = cfg.forward (batchArgs (effConvert cfg.converter) b) ∧
    batchLoss cfg b = cfg.lossfun (batchYs cfg b)
      (batchTs (effConvert cfg.converter) b) ∧
    batchTs (effConvert cfg.converter) b =
      effConvert cfg.converter b.getLast! ∧
    (cfg.converter = none →
      batchArgs (effConvert cfg.converter) b = b.dropLast ∧
      batchTs (effConvert cfg.converter) b = b.getLast!) := by
  obtain ⟨-, bl₂, -, -, htr⟩ := step_ok h
  refine ⟨⟨bl₂, htr⟩, rfl, rfl, rfl, ?_⟩
  intro hc
  rw [hc]
  exact ⟨batchArgs_id b, rfl⟩

theorem batch_split_convert_forward_witness :
    ∃ bl₂,
      ((processBatchStep cfgW emptyHooks true 1 0
          [PyVal.atom 5, PyVal.atom 7] 0 emptySt).2.1).trace =
        [Act.notify .BATCH_BEGIN (initBatchLogs (effConvert cfgW.converter)
           true 0 1 [PyVal.atom 5, PyVal.atom 7]),
         Act.forwardCall [PyVal.atom 5] (batchYs cfgW
           [PyVal.atom 5, PyVal.atom 7]),
         Act.lossCall (batchYs cfgW [PyVal.atom 5, PyVal.atom 7])
           (PyVal.atom 7) (batchLoss cfgW [PyVal.atom 5, PyVal.atom 7]),
         Act.updateCall cfgW.optimizer (batchLoss cfgW
           [PyVal.atom 5, PyVal.atom 7]),
         Act.notify .BATCH_END bl₂] ∧
      batchArgs (effConvert cfgW.converter) [PyVal.atom 5, PyVal.atom 7] =
        [PyVal.atom 5] ∧
      batchTs (effConvert cfgW.converter) [PyVal.atom 5, PyVal.atom 7] =
        PyVal.atom 7 := by
  have hnone : (processBatchStep cfgW emptyHooks true 1 0
      [PyVal.atom 5, PyVal.atom 7] 0 emptySt).2.2 = none := by decide
  have hstep : processBatchStep cfgW emptyHooks true 1 0
      [PyVal.atom 5, PyVal.atom 7] 0 emptySt =
      ((processBatchStep cfgW emptyHooks true 1 0
        [PyVal.atom 5, PyVal.atom 7] 0 emptySt).1,
       (processBatchStep cfgW emptyHooks true 1 0
         [PyVal.atom 5, PyVal.atom 7] 0 emptySt).2.1, none) := by
    have heta : processBatchStep cfgW emptyHooks true 1 0
        [PyVal.atom 5, PyVal.atom 7] 0 emptySt =
        ((processBatchStep cfgW emptyHooks true 1 0
          [PyVal.atom 5, PyVal.atom 7] 0 emptySt).1,
         (processBatchStep cfgW emptyHooks true 1 0
           [PyVal.atom 5, PyVal.atom 7] 0 emptySt).2.1,
         (processBatchStep cfgW emptyHooks true 1 0
           [PyVal.atom 5, PyVal.atom 7] 0 emptySt).2.2) := rfl
    rw [heta, hnone]
  obtain ⟨⟨bl₂, htr⟩, -, -, -, hid⟩ := batch_split_convert_forward cfgW
    emptyHooks true 1 0 [PyVal.atom 5, PyVal.atom 7] 0 _ emptySt _ hstep
  obtain ⟨hargs, hts⟩ := hid rfl
  refine ⟨bl₂, ?_, hargs.trans (by rfl), hts.trans (by rfl)⟩
  rw [htr]
  simp [hargs, hts]
  rfl

/-- C9: whenever `fit` returns normally, the history structure it returns
is the empty list: nothing is ever appended to `history` during the run,
regardless of epochs, batches or metrics. -/
theorem fit_history_empty {C : Type} (cfg : TrainerCfg C)
    (ht₀ : HookTable C) (x : FitX C) (y : Option (List (PyVal C)))
    (bs ep : ℕ) (vd : VdArg C) (s : St C) (hist : List ℚ)
    (h : fit cfg ht₀ x y bs ep vd = (s, .ok hist)) : hist = [] := by
  unfold fit at h
  rcases hx : resolveXY x y with e | td
  · rw [hx] at h; simp at h
  · rw [hx] at h
    rcases hv : resolveVd vd with e | vds
    · rw [hv] at h; simp at h
    · rw [hv] at h
      simp only [] at h
      rw [notify_eq] at h
      simp only [emptySt_trace, emptySt_frames, List.nil_append] at h
      rcases h1 : runCbs (fitHooks cfg ht₀ TrainEvent.TRAIN_BEGIN)
          ([] : Rec C) ([] : List Frame) with ⟨r₁, fs₁, err₁⟩
      rw [h1] at h
      cases err₁ with
      | some e => simp at h
      | none =>
          simp only [] at h
          rcases h2 : epochLoop cfg (fitHooks cfg ht₀) td vds bs
              (epochsList ep)
              ⟨[Act.notify TrainEvent.TRAIN_BEGIN []], [] :: fs₁⟩ with
            ⟨s₃, errL⟩
          rw [h2] at h
          cases errL with
          | some e => simp at h
          | none =>
              simp only [] at h
              rw [notify_eq] at h
              rcases h3 : runCbs (fitHooks cfg ht₀ TrainEvent.TRAIN_END)
                  ([] : Rec C) s₃.frames.tail with ⟨r₃, fs₃, err₃⟩
              rw [h3] at h
              cases err₃ with
              | some e => simp at h
              | none =>
                  simp only [Prod.mk.injEq, Except.ok.injEq] at h
                  exact h.2.symm

theorem fit_history_empty_witness :
    fit cfgW emptyHooks (.ds (dsW 3 [1])) none 32 1 .vNone =
      ((fit cfgW emptyHooks (.ds (dsW 3 [1])) none 32 1 .vNone).1,
        .ok ([] : List ℚ)) ∧ ([] : List ℚ) = [] := by
  have h2 : resOk (fit cfgW emptyHooks (.ds (dsW 3 [1])) none 32 1
      .vNone).2 = some [] := by decide
  have hs := resOk_eq _ _ h2
  have hrun : fit cfgW emptyHooks (.ds (dsW 3 [1])) none 32 1 .vNone =
      ((fit cfgW emptyHooks (.ds (dsW 3 [1])) none 32 1 .vNone).1,
        .ok ([] : List ℚ)) := by
    have heta : fit cfgW emptyHooks (.ds (dsW 3 [1])) none 32 1 .vNone =
        ((fit cfgW emptyHooks (.ds (dsW 3 [1])) none 32 1 .vNone).1,
          (fit cfgW emptyHooks (.ds (dsW 3 [1])) none 32 1 .vNone).2) := rfl
    rw [heta, hs]
  exact ⟨hrun, fit_history_empty cfgW emptyHooks (.ds (dsW 3 [1])) none 32 1
    .vNone _ [] hrun⟩

/-- C10: the record `_process` works on is a copy of the epoch record, so
the fields a phase writes (`size`, `num_batches`, the accumulated and
averaged `loss`) never reach the record passed to `EPOCH_END`: that record
is exactly the one produced by the `EPOCH_BEGIN` notification, and when no
callback is registered for `EPOCH_BEGIN` it still holds exactly the keys
`epoch` and `size` set at `EPOCH_BEGIN`, with no `num_batches` or `loss`
entry. -/
theorem epoch_record_isolation {C : Type} (cfg : TrainerCfg C)
    (ht : HookTable C) (trainDs : Dataset C) (valDs : Option (Dataset C))
    (bs ep : ℕ) (s s' : St C)
    (h : runEpoch cfg ht trainDs valDs bs ep s = (s', none)) :
    notifyRecs .EPOCH_END s'.trace = notifyRecs .EPOCH_END s.trace ++
      [(runCbs (ht .EPOCH_BEGIN) (initEpochRec ep trainDs.size)
          s.frames).1] ∧
    (ht .EPOCH_BEGIN = [] →
      (runCbs (ht .EPOCH_BEGIN) (initEpochRec ep trainDs.size)
          s.frames).1 = initEpochRec (C := C) ep trainDs.size ∧
      Rec.keys (initEpochRec (C := C) ep trainDs.size) =
        [Key.epoch, Key.size] ∧
      Rec.get (initEpochRec (C := C) ep trainDs.size) .num_batches =
        .none ∧
      Rec.get (initEpochRec (C := C) ep trainDs.size) .loss = .none) := by
  refine ⟨(runEpoch_ok h).2, ?_⟩
  intro hno
  rw [hno]
  exact ⟨rfl, rfl, rfl, rfl⟩

theorem epoch_record_isolation_witness :
    notifyRecs .EPOCH_END
      (runEpoch cfgW emptyHooks (dsW 3 [1, 2]) none 2 1 emptySt).1.trace =
      [initEpochRec 1 3] ∧
    emptyHooks (C := ℚ) .EPOCH_BEGIN = [] ∧
    Rec.keys (initEpochRec (C := ℚ) 1 3) = [Key.epoch, Key.size] ∧
    Rec.get (initEpochRec (C := ℚ) 1 3) .num_batches = .none ∧
    Rec.get (initEpochRec (C := ℚ) 1 3) .loss = .none := by
  have hnone : (runEpoch cfgW emptyHooks (dsW 3 [1, 2]) none 2 1
      emptySt).2 = none := by decide
  have hrun : runEpoch cfgW emptyHooks (dsW 3 [1, 2]) none 2 1 emptySt =
      ((runEpoch cfgW emptyHooks (dsW 3 [1, 2]) none 2 1 emptySt).1,
        none) := by
    have heta : runEpoch cfgW emptyHooks (dsW 3 [1, 2]) none 2 1 emptySt =
        ((runEpoch cfgW emptyHooks (dsW 3 [1, 2]) none 2 1 emptySt).1,
          (runEpoch cfgW emptyHooks (dsW 3 [1, 2]) none 2 1
            emptySt).2) := rfl
    rw [heta, hnone]
  obtain ⟨hrec, hspec⟩ := epoch_record_isolation cfgW emptyHooks
    (dsW 3 [1, 2]) none 2 1 emptySt _ hrun
  obtain ⟨hinit, hkeys, hnb, hloss⟩ := hspec rfl
  refine ⟨?_, rfl, hkeys, hnb, hloss⟩
  rw [hrec]
  simpa using congrArg (fun r => [r]) hinit
